import Mathlib

/-!
A verification development for the wallet / atomic-spend-construction engine of
`chialisp_dev_utility` (file `chialisp/test/__init__.py`).

The Python source is shallowly embedded below.  Cryptographic primitives
(hashing, signing, aggregation) are used by the source as black boxes, so they
are embedded as free constructors: `std_hash` and coin ids become constructors
of the `Digest` type (content-addressed and injective, exactly the contract the
source relies on), a BLS signature becomes a token recording the signed data,
and an aggregate signature is the list of the aggregated tokens.

The ledger service (`chia.clvm.spend_sim.SpendSim` / `SimClient`) is an external
collaborator of the repository, not part of its source.  It is modelled from the
spec's interface description (section 6: submit / advance-step / query-unspent /
current-time): a list of coin records, a mempool slot, a clock, and an opaque
validator function supplied by the environment.
-/

/-- Digests (32-byte hashes in the source) modelled as a free term algebra:
`puzzleOfPk pk` is `puzzle_for_pk(pk).get_tree_hash()`, `treeHash t` is the tree
hash of some other opaque program, `genesis n` is an externally injected parent
id (block rewards), `coinId p ph a` is `Coin.name()` = `std_hash(parent +
puzzle_hash + amount)`, and `sha a b` is `std_hash(a + b)`. -/
inductive Digest where
  | puzzleOfPk (pk : Nat)
  | treeHash (tag : Nat)
  | genesis (n : Nat)
  | coinId (parent : Digest) (puzzle_hash : Digest) (amount : Int)
  | sha (a : Digest) (b : Digest)
deriving DecidableEq, Repr

/-- Source `chia.types.blockchain_format.coin.Coin`: parent id, puzzle hash, amount.
The amount is an `Int`: the source computes amounts such as
`coin.amount - amt` with plain Python integer arithmetic, which can go
negative. -/
structure Coin where
  parent_coin_info : Digest
  puzzle_hash : Digest
  amount : Int
deriving DecidableEq, Repr

/-- Source `Coin.name()`: the content-addressed coin id. -/
def Coin.name (c : Coin) : Digest :=
  Digest.coinId c.parent_coin_info c.puzzle_hash c.amount

/-- The condition opcodes the source emits. -/
inductive Condition where
  | createCoin (puzzle_hash : Digest) (amount : Int)
  | createCoinAnnouncement (message : Digest)
  | assertCoinAnnouncement (announcement_id : Digest)
deriving DecidableEq, Repr

/-- A solution blob for a coin's puzzle.  `conditions l` is the standard
delegated-puzzle solution `Program.to([[], (1, l), []])`; `raw l` is the
escape hatch of `spend_coin` where the caller's `args` program is passed
verbatim (the program is opaque to the wallet; it is represented by the
condition list the ledger obtains by running it). -/
inductive Solution where
  | conditions (conds : List Condition)
  | raw (conds : List Condition)
deriving DecidableEq, Repr

/-- The conditions the ledger obtains from a solution. -/
def Solution.conds : Solution → List Condition
  | .conditions l => l
  | .raw l => l

/-- A BLS signature produced by `AugSchemeMPL.sign`: a token recording the
secret key and the signed message (delegated puzzle solution hash + coin
name + genesis extra data). -/
structure SigToken where
  sk : Nat
  solution : Solution
  coin_name : Digest
deriving DecidableEq, Repr

/-- Source `chia.types.coin_solution.CoinSolution`: coin being consumed, its puzzle
reveal (kept as its hash) and the solution blob. -/
structure CoinSpend where
  coin : Coin
  puzzle : Digest
  solution : Solution
deriving DecidableEq, Repr

/-- Source `chia.types.spend_bundle.SpendBundle`: the spends plus one aggregate
signature (`AugSchemeMPL.aggregate` of the individual signatures, modelled as
the list of aggregated tokens). -/
structure SpendBundle where
  coin_solutions : List CoinSpend
  aggregated_signature : List SigToken
deriving DecidableEq, Repr

/-- The dictionary returned by `Network.push_tx`: either `{'error': e}` or
`{'additions': ..., 'removals': ...}`. -/
inductive PushResult where
  | err (reason : String)
  | ok (additions : List Coin) (removals : List Coin)
deriving DecidableEq, Repr

/-- Source `SpendResult.__init__`: interprets a push result. -/
structure SpendResult where
  error : Option String
  outputs : List Coin
deriving DecidableEq, Repr

def SpendResult.of : PushResult → SpendResult
  | .err e => ⟨some e, []⟩
  | .ok additions _removals => ⟨none, additions⟩

/-- Source `SpendResult.find_standard_coins`: filter outputs by a wallet's puzzle
hash. -/
def SpendResult.find_standard_coins (s : SpendResult) (puzzle_hash : Digest) : List Coin :=
  s.outputs.filter (fun c => decide (c.puzzle_hash = puzzle_hash))

/-- Source `CoinWrapper.create_standard_spend(priv, conditions)`: build the standard
coin solution `([], (1, conditions), [])` and sign
`delegated_puzzle_solution.get_tree_hash() + self.name() + extra` with the
synthetic secret key. -/
def Coin.create_standard_spend (c : Coin) (priv : Nat) (conditions : List Condition) :
    CoinSpend × SigToken :=
  let delegated_puzzle_solution := Solution.conditions conditions
  (⟨c, c.puzzle_hash, delegated_puzzle_solution⟩,
   ⟨priv, delegated_puzzle_solution, c.name⟩)

/-- Sum of the amounts of a list of coins (`sum(map(lambda x: x.amount, coins))`). -/
def sumAmounts (l : List Coin) : Int :=
  l.foldr (fun c acc => c.amount + acc) 0

/-! ## The coin selector: `CoinPairSearch` -/

/-- Source `CoinPairSearch.__init__(target_amount)`: target, running total, and the
kept list (sorted by descending amount). -/
structure CoinPairSearch where
  target : Int
  total : Int
  max_coins : List Coin
deriving DecidableEq, Repr

/-- Source `CoinPairSearch.insort`: scan from the front, insert the coin before the
first kept coin of strictly smaller amount, else append (the `s`, `e`
parameters of the source are unused there). -/
def CoinPairSearch.insort (coin : Coin) : List Coin → List Coin
  | [] => [coin]
  | x :: xs =>
    if x.amount < coin.amount then coin :: x :: xs
    else x :: CoinPairSearch.insort coin xs

/-- The eviction loop of `process_coin_for_combine_search`:
`while len(max_coins) > 0 and total - max_coins[-1].amount >= target: pop`.
The loop pops at most one coin per iteration, so running it with
`fuel = max_coins.length` (see `CoinPairSearch.evict`) is the exact loop;
fuel makes the recursion structural. -/
def CoinPairSearch.evictFuel (target : Int) : Nat → Int → List Coin → Int × List Coin
  | 0, total, l => (total, l)
  | Nat.succ fuel, total, l =>
    match l.getLast? with
    | none => (total, l)
    | some c =>
      if target ≤ total - c.amount then
        CoinPairSearch.evictFuel target fuel (total - c.amount) l.dropLast
      else (total, l)

/-- The eviction `while` loop, run to completion. -/
def CoinPairSearch.evict (target : Int) (total : Int) (l : List Coin) : Int × List Coin :=
  CoinPairSearch.evictFuel target l.length total l

/-- Source `CoinPairSearch.process_coin_for_combine_search(coin)`. -/
def CoinPairSearch.process_coin_for_combine_search (s : CoinPairSearch) (coin : Coin) :
    CoinPairSearch :=
  let total := s.total + coin.amount
  if s.max_coins = [] then
    { s with total := total, max_coins := [coin] }
  else
    let result := CoinPairSearch.evict s.target total (CoinPairSearch.insort coin s.max_coins)
    { s with total := result.1, max_coins := result.2 }

/-- Source `CoinPairSearch.get_result()`. -/
def CoinPairSearch.get_result (s : CoinPairSearch) : List Coin × Int :=
  (s.max_coins, s.total)

/-! ## Wallet, ledger model and network -/

/-- A coin record held by the ledger service (coin plus spent flag), as
returned by `SimClient.get_coin_records_by_puzzle_hash`. -/
structure CoinRecord where
  coin : Coin
  spent : Bool
deriving DecidableEq, Repr

/-- Modelled from the spec: the external ledger service (section 6).
`records` is its coin database, `timestamp` its clock in seconds, `pending`
the mempool slot filled by `submit`, `reward_amount` the block issuance, and
`validate` its opaque transaction-validation rule (`none` means accepted,
`some reason` rejected).  `counter` generates fresh ids for injected reward
coins. -/
structure Sim where
  records : List CoinRecord
  timestamp : Int
  pending : Option SpendBundle
  reward_amount : Int
  counter : Nat
  validate : List CoinRecord → SpendBundle → Option String

/-- The coins created by committing a bundle: for each spend, each
`CREATE_COIN ph amt` condition creates `Coin(spent_coin.name(), ph, amt)`. -/
def bundleCreations (b : SpendBundle) : List CoinSpend → List Coin
  | [] => []
  | cs :: rest =>
    (cs.solution.conds.filterMap (fun cond =>
      match cond with
      | .createCoin ph amt => some ⟨cs.coin.name, ph, amt⟩
      | _ => none)) ++ bundleCreations b rest

/-- The coins destroyed by committing a bundle: the coins of its spends. -/
def bundleRemovals (b : SpendBundle) : List Coin :=
  b.coin_solutions.map CoinSpend.coin

/-- Modelled from the spec: one production step of the ledger service
(section 6 `advance_step`).  Commits the pending transaction (marking its
input coins spent and recording its created coins), injects one reward coin
for the farmer, and returns `(additions, removals)`. -/
def Sim.farm_block (s : Sim) (farmer_puzzle_hash : Digest) : Sim × List Coin × List Coin :=
  let txAdds := match s.pending with
    | none => []
    | some b => bundleCreations b b.coin_solutions
  let txRems := match s.pending with
    | none => []
    | some b => bundleRemovals b
  let reward : Coin := ⟨Digest.genesis s.counter, farmer_puzzle_hash, s.reward_amount⟩
  let additions := reward :: txAdds
  let records' :=
    (s.records.map (fun r => if r.coin ∈ txRems then { r with spent := true } else r))
      ++ additions.map (fun c => ⟨c, false⟩)
  ({ s with records := records', pending := none, counter := s.counter + 1 },
   additions, txRems)

/-- One microsecond is the resolution of `datetime.timedelta`; all times and
durations below are integers measured in microseconds. -/
def usPerSecond : Int := 1000000

/-- Modelled from the spec: `SpendSim.pass_time(seconds)` advances the ledger
clock. -/
def Sim.pass_time (s : Sim) (seconds : Int) : Sim :=
  { s with timestamp := s.timestamp + seconds * usPerSecond }

/-- Source `Wallet.__init__`: key pair, puzzle (kept by its hash
`puzzle_for_pk(pk).get_tree_hash()`), and the coin set, a dict
`coin_id -> Coin` (an insertion-ordered association list, as a Python dict). -/
structure Wallet where
  name : String
  pk_ : Nat
  sk_ : Nat
  puzzle_hash : Digest
  usable_coins : List (Digest × Coin)
deriving Repr

instance : Inhabited Wallet := ⟨⟨"", 0, 0, Digest.puzzleOfPk 0, []⟩⟩

/-- Source `Wallet.pk()`. -/
def Wallet.pk (w : Wallet) : Nat := w.pk_

/-- Source `Wallet.balance()`: sum of the amounts of the usable coins. -/
def Wallet.balance (w : Wallet) : Int :=
  sumAmounts (w.usable_coins.map Prod.snd)

/-- Python dict assignment `d[k] = v`: replace in place or append. -/
def upsert (k : Digest) (v : Coin) : List (Digest × Coin) → List (Digest × Coin)
  | [] => [(k, v)]
  | p :: rest => if p.1 = k then (k, v) :: rest else p :: upsert k v rest

/-- Source `Wallet.add_coin(coin)`: `usable_coins[coin.name()] = coin`. -/
def Wallet.add_coin (w : Wallet) (coin : Coin) : Wallet :=
  { w with usable_coins := upsert coin.name coin w.usable_coins }

/-- Source `Wallet._clear_coins()`. -/
def Wallet.clear_coins (w : Wallet) : Wallet :=
  { w with usable_coins := [] }

/-- The per-wallet refresh loop of `Network.farm_block`: clear the coin set,
query the ledger for coin records with this wallet's puzzle hash, and
`add_coin` every unspent one. -/
def Wallet.refresh_from_ledger (w : Wallet) (records : List CoinRecord) : Wallet :=
  (records.filter (fun r => decide (r.coin.puzzle_hash = w.puzzle_hash))).foldl
    (fun acc r => if r.spent = false then acc.add_coin r.coin else acc)
    w.clear_coins

/-- Source `datetime.timedelta(block_time)` where
`block_time = (600.0 / 32.0) / duration_div` days and
`duration_div = 86400.0`: the round trip through days cancels exactly, giving
18.75 seconds = 18750000 microseconds per farmed block. -/
def block_time_us : Int := 18750000

/-- Source `Network`: simulation time (a timedelta, in seconds), the ledger service,
and the known wallets (a dict keyed by public key; `nobody`, created first by
`Network.create`, is the wallet at index 0). -/
structure Network where
  time : Int
  sim : Sim
  wallets : List Wallet

/-- Wallet lookup by index (operations below act on `self` through its index
in the network's wallet map). -/
def Network.getWallet (net : Network) (i : Nat) : Wallet :=
  net.wallets.getD i default

/-- Source `Network._alloc_key` + `Network.make_wallet(name)`: the external key
service maps the index `len(wallets)` to a key pair (modelled as the index
itself); the wallet's puzzle hash is `puzzle_for_pk(pk)`'s tree hash. -/
def Network.make_wallet (net : Network) (name : String) : Network × Wallet :=
  let key_idx := net.wallets.length
  let w : Wallet := ⟨name, key_idx, key_idx, Digest.puzzleOfPk key_idx, []⟩
  ({ net with wallets := net.wallets ++ [w] }, w)

/-- Source `Network.create`: time starts at `timedelta(days=18750, seconds=61201)`,
a fresh ledger service is created (its initial records, clock and validation
rule belong to the external service and are parameters here), and the
`nobody` wallet is created first. -/
def Network.create (validate : List CoinRecord → SpendBundle → Option String)
    (initRecords : List CoinRecord) (initTimestamp : Int) (reward : Int) : Network :=
  let net0 : Network :=
    { time := (18750 * 86400 + 61201) * usPerSecond
      sim := ⟨initRecords, initTimestamp, none, reward, 0, validate⟩
      wallets := [] }
  (net0.make_wallet "nobody").1

/-- Source `Network.farm_block(farmer?)`: advance the ledger one production step with
the farmer's puzzle hash (`nobody`, index 0, if unspecified), then clear every
wallet's coin set and wholly rebuild it from a fresh ledger query, then
advance `self.time` by one block time. -/
def Network.farm_block (net : Network) (farmer : Option Nat) : Network × List Coin × List Coin :=
  let farmerW := match farmer with
    | some i => net.getWallet i
    | none => net.getWallet 0
  let (sim', additions, removals) := net.sim.farm_block farmerW.puzzle_hash
  let wallets' := net.wallets.map (fun w => w.refresh_from_ledger sim'.records)
  ({ time := net.time + block_time_us, sim := sim', wallets := wallets' },
   additions, removals)

/-- Source `Network.push_tx(bundle)`: submit to the ledger service; on rejection
return `{'error': str(error)}` immediately (no block is farmed, nothing
changes); on acceptance farm one block right away and return
`{'additions': ..., 'removals': ...}`. -/
def Network.push_tx (net : Network) (bundle : SpendBundle) : Network × PushResult :=
  match net.sim.validate net.sim.records bundle with
  | some e => (net, PushResult.err e)
  | none =>
    let net1 := { net with sim := { net.sim with pending := some bundle } }
    let (net2, additions, removals) := net1.farm_block none
    (net2, PushResult.ok additions removals)

/-- Source `Network.get_timestamp()`: `timedelta(seconds=self.sim.timestamp)`. -/
def Network.get_timestamp (net : Network) : Int := net.sim.timestamp

/-- One iteration of the `skip_time` loop body:
`await self.farm_block(**kwargs); self.sim.pass_time(20)`. -/
def skipStep (farmer : Option Nat) (net : Network) : Network :=
  let net1 := (net.farm_block farmer).1
  { net1 with sim := net1.sim.pass_time 20 }

/-- The `while target_time > self.get_timestamp()` loop of `skip_time`,
bounded by fuel (the loop has no bound of its own in the source; `none` is
returned only when the fuel runs out before the clock reaches the target). -/
def skipLoop (farmer : Option Nat) (target_time : Int) : Nat → Network → Option Network
  | 0, _ => none
  | Nat.succ fuel, net =>
    if net.get_timestamp < target_time then
      skipLoop farmer target_time fuel (skipStep farmer net)
    else some net

/-- Source `Network.skip_time(target_duration, farmer?)`: `target_time = self.time +
timedelta(pytimeparse.parse(target_duration) / duration_div)`; farm blocks
until the ledger clock reaches it.  `durationUs` is the parse result of the
duration string, converted to microseconds (the division by `duration_div`
into days and the conversion back through `timedelta` cancel exactly). -/
def Network.skip_time (net : Network) (fuel : Nat) (durationUs : Int)
    (farmer : Option Nat) : Option Network :=
  skipLoop farmer (net.time + durationUs) fuel net

/-! ## Wallet operations -/

/-- Source `Wallet.compute_combine_action(amt, actions, usable_coins)`: run every
usable coin through a `CoinPairSearch`, return the kept coins if their total
covers `amt`, else `None` (the `actions` parameter is unused in the
source). -/
def Wallet.compute_combine_action (w : Wallet) (amt : Int) : Option (List Coin) :=
  let searcher : CoinPairSearch := ⟨amt, 0, []⟩
  let searcher := w.usable_coins.foldl
    (fun s p => s.process_coin_for_combine_search p.2) searcher
  let (max_coins, total) := searcher.get_result
  if amt ≤ total then some max_coins else none

/-- The spend-bundle construction of `Wallet.combine_coins(coins)`, given
`lastCoin = coins[-1]`: predict the merged coin
`CoinWrapper(coins[-1].name(), self.puzzle_hash, sum(amounts))` first; for
every input but the last create a standard spend whose only condition is
`ASSERT_COIN_ANNOUNCEMENT std_hash(coins[-1].name() + final_coin.name())`;
for the last input a standard spend with conditions
`CREATE_COIN_ANNOUNCEMENT final_coin.name()` and
`CREATE_COIN self.puzzle_hash final_coin.amount`; aggregate all signatures. -/
def Wallet.combine_bundle (w : Wallet) (coins : List Coin) (lastCoin : Coin) :
    Coin × SpendBundle :=
  let final_coin : Coin := ⟨lastCoin.name, w.puzzle_hash, sumAmounts coins⟩
  let announce_conditions : List Condition :=
    [Condition.assertCoinAnnouncement (Digest.sha lastCoin.name final_coin.name)]
  let destroyed := coins.dropLast.map
    (fun c => c.create_standard_spend w.sk_ announce_conditions)
  let final_coin_creation : List Condition :=
    [Condition.createCoinAnnouncement final_coin.name,
     Condition.createCoin w.puzzle_hash final_coin.amount]
  let spends := destroyed ++ [lastCoin.create_standard_spend w.sk_ final_coin_creation]
  (final_coin, ⟨spends.map Prod.fst, spends.map Prod.snd⟩)

/-- Source `Wallet.combine_coins(coins)` for the wallet at index `i`: record the
beginning balance and coin count, build the combine bundle, push it as one
transaction, then `assert` the balance is unchanged and the coin count
dropped by `len(coins) - 1`.  A Python exception (the `IndexError` of
`coins[-1]` on an empty list, or a failed `assert`) is an `Except.error`;
the network state at the moment of the exception is returned alongside, as
Python mutations survive a raised exception. -/
def Wallet.combine_coins (net : Network) (i : Nat) (coins : List Coin) :
    Network × Except String SpendResult :=
  let w := net.getWallet i
  let beginning_balance := w.balance
  let beginning_coins := w.usable_coins.length
  match coins.getLast? with
  | none => (net, Except.error "IndexError: list index out of range")
  | some lastCoin =>
    let spend_bundle := (w.combine_bundle coins lastCoin).2
    let (net1, pushed) := net.push_tx spend_bundle
    let w1 := net1.getWallet i
    (net1,
      if beginning_balance = w1.balance then
        if (w1.usable_coins.length : Int)
            = (beginning_coins : Int) - ((coins.length : Int) - 1) then
          Except.ok (SpendResult.of pushed)
        else Except.error "AssertionError"
      else Except.error "AssertionError")

/-- Source `Wallet.choose_coin(amt)` for the wallet at index `i`: select coins; if
none cover the target return `None`; a single selected coin is returned
directly; otherwise combine the selection (one transaction), `assert` the
balance is unchanged, and start over.  The recursion of the source has no
structural bound, so it runs on fuel; `result is None` never holds after
`combine_coins` (which returns a `SpendResult` or raises), so that dead
branch of the source is not represented. -/
def Wallet.choose_coin : Nat → Network → Nat → Int → Network × Except String (Option Coin)
  | 0, net, _, _ => (net, Except.error "RecursionError")
  | Nat.succ fuel, net, i, amt =>
    let w := net.getWallet i
    let start_balance := w.balance
    match w.compute_combine_action amt with
    | none => (net, Except.ok none)
    | some coins_to_spend =>
      match coins_to_spend with
      | [c] => (net, Except.ok (some c))
      | _ =>
        let (net1, result) := Wallet.combine_coins net i coins_to_spend
        match result with
        | Except.error e => (net1, Except.error e)
        | Except.ok _ =>
          if (net1.getWallet i).balance = start_balance then
            Wallet.choose_coin fuel net1 i amt
          else (net1, Except.error "AssertionError")

/-- Source `Wallet.launch_contract(source, amt=...)` for the wallet at index `i`:
find a funding coin via `choose_coin` (raising `ValueError` if none exists);
emit `CREATE_COIN contract_hash amt` plus, when the funding coin has excess,
`CREATE_COIN self.puzzle_hash (found_coin.amount - amt)`; sign and push the
single-spend bundle; on a push error return `None` (no exception), otherwise
return the predicted contract coin `CoinWrapper(found_coin.name(),
contract_hash, amt)`.  `source_hash` is the contract program's tree hash
(`ContractWrapper.puzzle_hash()`). -/
def Wallet.launch_contract (fuel : Nat) (net : Network) (i : Nat)
    (source_hash : Digest) (amt : Int) : Network × Except String (Option Coin) :=
  let (net1, chosen) := Wallet.choose_coin fuel net i amt
  match chosen with
  | Except.error e => (net1, Except.error e)
  | Except.ok none =>
    (net1, Except.error ("ValueError: could not find available coin containing "
      ++ toString amt ++ " mojo"))
  | Except.ok (some found_coin) =>
    let w := net1.getWallet i
    let condition_args : List Condition :=
      [Condition.createCoin source_hash amt] ++
        (if amt < found_coin.amount then
          [Condition.createCoin w.puzzle_hash (found_coin.amount - amt)]
        else [])
    let solution := Solution.conditions condition_args
    let spend_bundle : SpendBundle :=
      ⟨[⟨found_coin, w.puzzle_hash, solution⟩], [⟨w.sk_, solution, found_coin.name⟩]⟩
    let (net2, pushed) := net1.push_tx spend_bundle
    match pushed with
    | PushResult.err _ => (net2, Except.ok none)
    | PushResult.ok _ _ => (net2, Except.ok (some ⟨found_coin.name, source_hash, amt⟩))

/-- Source `Wallet.give_chia(target, amt)`: sugar for `launch_contract(target.puzzle,
amt=amt)`. -/
def Wallet.give_chia (fuel : Nat) (net : Network) (i : Nat) (target : Wallet)
    (amt : Int) : Network × Except String (Option Coin) :=
  Wallet.launch_contract fuel net i target.puzzle_hash amt

/-- The remainder recipient of `spend_coin` (`remain=` keyword): the source
branches on `isinstance(remainer, ContractWrapper)` /
`isinstance(remainer, Wallet)` and raises `ValueError` otherwise. -/
inductive Remainder where
  | contract (puzzle_hash : Digest)
  | wallet (puzzle_hash : Digest)
  | other (tag : Nat)
deriving DecidableEq, Repr

/-- The keyword arguments of `Wallet.spend_coin`. -/
structure SpendOptions where
  amt : Option Int := none
  to_ : Option Digest := none  -- the 'to' keyword argument ('to' is reserved in Lean)
  remain : Option Remainder := none
  args : Option (List Condition) := none

/-- The solution construction of `Wallet.spend_coin`: with no `args`, emit
`CREATE_COIN target amt` (target defaults to the wallet's own puzzle hash,
`amt` defaults to 1) and, when `remain` is given, a second
`CREATE_COIN remainder_hash (coin.amount - amt)` — no check that `amt` is at
most `coin.amount`.  With `args`, the caller's program is passed verbatim. -/
def Wallet.spend_coin_solution (w : Wallet) (coin : Coin) (opts : SpendOptions) :
    Except String Solution :=
  let amt := opts.amt.getD 1
  match opts.args with
  | none =>
    let target_puzzle_hash := opts.to_.getD w.puzzle_hash
    let solution_list : List Condition := [Condition.createCoin target_puzzle_hash amt]
    match opts.remain with
    | none => Except.ok (Solution.conditions solution_list)
    | some remainer =>
      let remain_amt := coin.amount - amt
      match remainer with
      | Remainder.contract ph =>
        Except.ok (Solution.conditions
          (solution_list ++ [Condition.createCoin ph remain_amt]))
      | Remainder.wallet ph =>
        Except.ok (Solution.conditions
          (solution_list ++ [Condition.createCoin ph remain_amt]))
      | Remainder.other _ =>
        Except.error "ValueError: remainer is not a wallet or a contract"
  | some args => Except.ok (Solution.raw args)

/-- Source `Wallet.spend_coin(coin, **kwargs)` for the wallet at index `i`: build the
solution, sign it (`sign_coin_solutions`), push the single-spend bundle and
wrap the push result in a `SpendResult`. -/
def Wallet.spend_coin (net : Network) (i : Nat) (coin : Coin) (opts : SpendOptions) :
    Network × Except String SpendResult :=
  let w := net.getWallet i
  match w.spend_coin_solution coin opts with
  | Except.error e => (net, Except.error e)
  | Except.ok solution =>
    let spend_bundle : SpendBundle :=
      ⟨[⟨coin, coin.puzzle_hash, solution⟩], [⟨w.sk_, solution, coin.name⟩]⟩
    let (net1, pushed) := net.push_tx spend_bundle
    (net1, Except.ok (SpendResult.of pushed))

/-! ## Concrete environments used by the closed theorems -/

/-- A ledger validation rule that accepts every bundle. -/
def acceptAll : List CoinRecord → SpendBundle → Option String := fun _ _ => none

/-- A ledger validation rule that rejects every bundle. -/
def rejectAll : List CoinRecord → SpendBundle → Option String :=
  fun _ _ => some "GENERATOR_RUNTIME_ERROR"

def nobodyW : Wallet := ⟨"nobody", 0, 0, Digest.puzzleOfPk 0, []⟩

def coinA : Coin := ⟨Digest.genesis 100, Digest.puzzleOfPk 1, 3⟩
def coinB : Coin := ⟨Digest.genesis 101, Digest.puzzleOfPk 1, 5⟩

def aliceW : Wallet :=
  ⟨"alice", 1, 1, Digest.puzzleOfPk 1, [(coinA.name, coinA), (coinB.name, coinB)]⟩

/-- A session whose ledger accepts everything; alice (index 1) holds the
unspent coins `coinA` (amount 3) and `coinB` (amount 5). -/
def exNet : Network :=
  { time := (18750 * 86400 + 61201) * usPerSecond
    sim := ⟨[⟨coinA, false⟩, ⟨coinB, false⟩], 1620061201 * usPerSecond,
            none, 1000000, 0, acceptAll⟩
    wallets := [nobodyW, aliceW] }

/-- The same session with a ledger that rejects every transaction. -/
def exNetR : Network :=
  { time := (18750 * 86400 + 61201) * usPerSecond
    sim := ⟨[⟨coinA, false⟩, ⟨coinB, false⟩], 1620061201 * usPerSecond,
            none, 1000000, 0, rejectAll⟩
    wallets := [nobodyW, aliceW] }

def coinC : Coin := ⟨Digest.genesis 102, Digest.puzzleOfPk 2, 1⟩

/-- A wallet holding the single coin `coinC` (amount 1). -/
def bobW : Wallet := ⟨"bob", 2, 2, Digest.puzzleOfPk 2, [(coinC.name, coinC)]⟩

def coin10a : Coin := ⟨Digest.genesis 110, Digest.puzzleOfPk 3, 10⟩
def coin10b : Coin := ⟨Digest.genesis 111, Digest.puzzleOfPk 3, 10⟩
def coin10c : Coin := ⟨Digest.genesis 112, Digest.puzzleOfPk 3, 10⟩

/-- A wallet holding three coins of amount 10 (spec scenario A). -/
def carolW : Wallet :=
  ⟨"carol", 3, 3, Digest.puzzleOfPk 3,
   [(coin10a.name, coin10a), (coin10b.name, coin10b), (coin10c.name, coin10c)]⟩

/-- Entries of a wallet coin dictionary are canonical: each key is its coin's
content-addressed id (the only shape `add_coin` ever inserts). -/
def CanonicalEntries (m : List (Digest × Coin)) : Prop :=
  ∀ p ∈ m, p.1 = p.2.name

/-- The single-spend bundle `launch_contract` constructs once a funding coin
has been found: create the contract-locked coin for `amt` and, when the
funding coin has excess, a change output back to the wallet. -/
def launchBundle (net1 : Network) (i : Nat) (source_hash : Digest) (amt : Int)
    (found_coin : Coin) : SpendBundle :=
  let w := net1.getWallet i
  let condition_args : List Condition :=
    [Condition.createCoin source_hash amt] ++
      (if amt < found_coin.amount then
        [Condition.createCoin w.puzzle_hash (found_coin.amount - amt)]
      else [])
  ⟨[⟨found_coin, w.puzzle_hash, Solution.conditions condition_args⟩],
   [⟨w.sk_, Solution.conditions condition_args, found_coin.name⟩]⟩

/-- The kept list is sorted by descending amount. -/
def SortedDesc (l : List Coin) : Prop :=
  l.Pairwise (fun a b => b.amount ≤ a.amount)

/-- The invariant maintained by `process_coin_for_combine_search` over the
coins processed so far (`done`). -/
structure SelectorInv (done : List Coin) (s : CoinPairSearch) : Prop where
  total_eq : s.total = sumAmounts s.max_coins
  sorted : SortedDesc s.max_coins
  mem : ∀ c ∈ s.max_coins, c ∈ done
  minimal : ∀ m, s.max_coins.getLast? = some m → s.total - m.amount < s.target
  cover : s.target ≤ s.total ∨ s.total = sumAmounts done
  bounded : s.total ≤ sumAmounts done

/-! ## Helper lemmas -/

theorem sumAmounts_append (l₁ l₂ : List Coin) :
    sumAmounts (l₁ ++ l₂) = sumAmounts l₁ + sumAmounts l₂ := by
  induction l₁ with
  | nil => simp [sumAmounts]
  | cons c rest ih => simp [sumAmounts, List.foldr_cons] at ih ⊢; omega

theorem sumAmounts_nonneg (l : List Coin) (h : ∀ x ∈ l, 0 ≤ x.amount) :
    0 ≤ sumAmounts l := by
  induction l with
  | nil => simp [sumAmounts]
  | cons c rest ih =>
    have hc := h c (by simp)
    have := ih (fun x hx => h x (by simp [hx]))
    simp only [sumAmounts, List.foldr_cons] at *
    omega

theorem coin_name_inj {c c' : Coin} (h : c.name = c'.name) : c = c' := by
  cases c; cases c'
  simpa [Coin.name, Digest.coinId.injEq, Coin.mk.injEq] using h

theorem dropLast_append_getLast?_self {α : Type} (l : List α) (a : α)
    (h : l.getLast? = some a) : l.dropLast ++ [a] = l :=
  List.dropLast_append_getLast? a h

/-- Claim C1: given an ordered non-empty list of input coins (whose last
element is `lastCoin`), `combine_coins` builds one spend per input coin, in
input order; the predicted merged coin is `(coins[-1].name(), puzzle_hash,
summed amount)`, computed before any spend; every spend but the last carries
exactly one `ASSERT_COIN_ANNOUNCEMENT` of `std_hash(coins[-1].name() +
final_coin.name())`; the last spend carries exactly the
`CREATE_COIN_ANNOUNCEMENT` of the predicted coin id and the `CREATE_COIN`
of the summed amount locked to the wallet's puzzle hash; the bundle's
aggregate signature aggregates exactly one signature per spend; and
`combine_coins` performs exactly one `push_tx` of this single bundle. -/
theorem combine_bundle_spec (w : Wallet) (coins : List Coin) (lastCoin : Coin)
    (h : coins.getLast? = some lastCoin) :
    (w.combine_bundle coins lastCoin).1
      = ⟨lastCoin.name, w.puzzle_hash, sumAmounts coins⟩ ∧
    (w.combine_bundle coins lastCoin).2.coin_solutions.map CoinSpend.coin = coins ∧
    (∀ cs ∈ (w.combine_bundle coins lastCoin).2.coin_solutions.dropLast,
      cs.solution = Solution.conditions
        [Condition.assertCoinAnnouncement (Digest.sha lastCoin.name
          (Coin.name ⟨lastCoin.name, w.puzzle_hash, sumAmounts coins⟩))]) ∧
    ((w.combine_bundle coins lastCoin).2.coin_solutions.getLast?
      = some ⟨lastCoin, lastCoin.puzzle_hash, Solution.conditions
          [Condition.createCoinAnnouncement
            (Coin.name ⟨lastCoin.name, w.puzzle_hash, sumAmounts coins⟩),
           Condition.createCoin w.puzzle_hash (sumAmounts coins)]⟩) ∧
    ((w.combine_bundle coins lastCoin).2.aggregated_signature
      = (w.combine_bundle coins lastCoin).2.coin_solutions.map
          (fun cs => ⟨w.sk_, cs.solution, cs.coin.name⟩)) ∧
    (∀ net i, (Wallet.combine_coins net i coins).1
      = (net.push_tx ((net.getWallet i).combine_bundle coins lastCoin).2).1) := by
  have hd := dropLast_append_getLast?_self coins lastCoin h
  refine ⟨rfl, ?_, ?_, ?_, ?_, ?_⟩
  · simp only [Wallet.combine_bundle, Coin.create_standard_spend, List.map_append,
      List.map_map, List.map_cons, List.map_nil, Function.comp_def]
    simpa using hd
  · intro cs hcs
    simp only [Wallet.combine_bundle, Coin.create_standard_spend, List.map_append,
      List.map_map, List.map_cons, List.map_nil, Function.comp_def] at hcs
    rw [List.dropLast_concat] at hcs
    simp only [List.mem_map] at hcs
    obtain ⟨c, _, rfl⟩ := hcs
    rfl
  · simp only [Wallet.combine_bundle, Coin.create_standard_spend, List.map_append,
      List.map_map, List.map_cons, List.map_nil, Function.comp_def]
    rw [List.getLast?_concat]
  · simp only [Wallet.combine_bundle, Coin.create_standard_spend, List.map_append,
      List.map_map, List.map_cons, List.map_nil, Function.comp_def]
  · intro net i
    simp only [Wallet.combine_coins, h]

/-- Witness for `combine_bundle_spec` at alice's two coins. -/
theorem combine_bundle_spec_witness :
    (aliceW.combine_bundle [coinA, coinB] coinB).1
      = ⟨coinB.name, aliceW.puzzle_hash, sumAmounts [coinA, coinB]⟩ ∧
    (aliceW.combine_bundle [coinA, coinB] coinB).2.coin_solutions.map CoinSpend.coin
      = [coinA, coinB] :=
  ⟨(combine_bundle_spec aliceW [coinA, coinB] coinB rfl).1,
   (combine_bundle_spec aliceW [coinA, coinB] coinB rfl).2.1⟩

/-- Claim C10: `spend_coin` never checks the requested amount against the
spent coin's amount.  With a remainder recipient that is a Wallet or a
Contract (and no `args` override) the remainder condition's amount is
`coin.amount - amt`, which is negative whenever `amt > coin.amount`, and the
resulting bundle is pushed to the ledger rather than rejected locally. -/
theorem spend_coin_no_amount_check (w : Wallet) (coin : Coin) (amt : Int) (ph : Digest) :
    (w.spend_coin_solution coin { amt := some amt, remain := some (Remainder.wallet ph) }
      = Except.ok (Solution.conditions
          [Condition.createCoin w.puzzle_hash amt,
           Condition.createCoin ph (coin.amount - amt)])) ∧
    (w.spend_coin_solution coin { amt := some amt, remain := some (Remainder.contract ph) }
      = Except.ok (Solution.conditions
          [Condition.createCoin w.puzzle_hash amt,
           Condition.createCoin ph (coin.amount - amt)])) ∧
    (coin.amount < amt → coin.amount - amt < 0) ∧
    (∀ net i,
      Wallet.spend_coin net i coin { amt := some amt, remain := some (Remainder.wallet ph) }
        = ((net.push_tx
              ⟨[⟨coin, coin.puzzle_hash, Solution.conditions
                  [Condition.createCoin (net.getWallet i).puzzle_hash amt,
                   Condition.createCoin ph (coin.amount - amt)]⟩],
               [⟨(net.getWallet i).sk_, Solution.conditions
                  [Condition.createCoin (net.getWallet i).puzzle_hash amt,
                   Condition.createCoin ph (coin.amount - amt)], coin.name⟩]⟩).1,
           Except.ok (SpendResult.of (net.push_tx
              ⟨[⟨coin, coin.puzzle_hash, Solution.conditions
                  [Condition.createCoin (net.getWallet i).puzzle_hash amt,
                   Condition.createCoin ph (coin.amount - amt)]⟩],
               [⟨(net.getWallet i).sk_, Solution.conditions
                  [Condition.createCoin (net.getWallet i).puzzle_hash amt,
                   Condition.createCoin ph (coin.amount - amt)], coin.name⟩]⟩).2))) := by
  refine ⟨rfl, rfl, fun hlt => by omega, fun net i => ?_⟩
  simp only [Wallet.spend_coin, Wallet.spend_coin_solution, Option.getD_some,
    Option.getD_none, List.singleton_append]

/-- Witness for `spend_coin_no_amount_check`: coin of amount 3, requested
amount 7 — the remainder instruction has amount `-4`. -/
theorem spend_coin_no_amount_check_witness :
    (aliceW.spend_coin_solution coinA
      { amt := some 7, remain := some (Remainder.wallet (Digest.puzzleOfPk 2)) }
      = Except.ok (Solution.conditions
          [Condition.createCoin aliceW.puzzle_hash 7,
           Condition.createCoin (Digest.puzzleOfPk 2) (coinA.amount - 7)])) ∧
    coinA.amount - 7 < 0 :=
  ⟨(spend_coin_no_amount_check aliceW coinA 7 (Digest.puzzleOfPk 2)).1,
   (spend_coin_no_amount_check aliceW coinA 7 (Digest.puzzleOfPk 2)).2.2.1 (by decide)⟩

/-- Claim C4 (code behaviour at the failing input): when the ledger rejects a
combine of two coins, the actor's coin set is left untouched (the returned
network is exactly the input network, so no input coin was removed), but
`combine_coins` raises `AssertionError` from its own post-condition check
(`len(usable_coins) == beginning_coins - (len(coins) - 1)` cannot hold when
nothing was spent) instead of surfacing the rejection as a result value. -/
theorem rejected_combine_raises_assert :
    Wallet.combine_coins exNetR 1 [coinA, coinB]
      = (exNetR, Except.error "AssertionError") ∧
    ((Wallet.combine_coins exNetR 1 [coinA, coinB]).1.getWallet 1).usable_coins
      = [(coinA.name, coinA), (coinB.name, coinB)] :=
  ⟨rfl, rfl⟩

/-- Claim C5, corrected: when the selector reports infeasibility,
`choose_coin` returns `None` (a normal value); it raises no
insufficient-funds error itself (its caller `launch_contract` does). -/
theorem choose_coin_infeasible_returns_none (fuel : Nat) (net : Network) (i : Nat)
    (amt : Int) (h : (net.getWallet i).compute_combine_action amt = none) :
    Wallet.choose_coin (fuel + 1) net i amt = (net, Except.ok none) := by
  simp only [Wallet.choose_coin, h]

/-- Counterexample to claim C5 as stated: on a wallet whose usable coins sum
to 8, `choose_coin 100` returns the ordinary value `None` — it does not
propagate an insufficient-funds error. -/
theorem choose_coin_infeasible_cex :
    Wallet.choose_coin 5 exNet 1 100 = (exNet, Except.ok none) := rfl

/-- Witness for `choose_coin_infeasible_returns_none`. -/
theorem choose_coin_infeasible_returns_none_witness :
    Wallet.choose_coin 3 exNet 1 100 = (exNet, Except.ok none) :=
  choose_coin_infeasible_returns_none 2 exNet 1 100 (by decide)

/-- Claim C7: `push_tx` returns data, never raises.  On ledger rejection it
returns the error with the ledger-supplied reason and the session completely
unchanged (no time advance, no block farmed, no coins created); on acceptance
it advances exactly one production step (one block time) and returns the
coins created (the reward coin plus the bundle's `CREATE_COIN` outputs) and
destroyed (the bundle's input coins) by that step, leaving the mempool
empty. -/
theorem push_tx_spec (net : Network) (bundle : SpendBundle) :
    (∀ e, net.sim.validate net.sim.records bundle = some e →
      net.push_tx bundle = (net, PushResult.err e)) ∧
    (net.sim.validate net.sim.records bundle = none →
      (net.push_tx bundle).2
          = PushResult.ok
              (Coin.mk (Digest.genesis net.sim.counter) (net.getWallet 0).puzzle_hash
                  net.sim.reward_amount
                :: bundleCreations bundle bundle.coin_solutions)
              (bundleRemovals bundle) ∧
        (net.push_tx bundle).1.time = net.time + block_time_us ∧
        (net.push_tx bundle).1.sim.pending = none) := by
  constructor
  · intro e he
    simp only [Network.push_tx, he]
  · intro hv
    simp [Network.push_tx, hv, Network.farm_block, Sim.farm_block, Network.getWallet]

/-- Witness for `push_tx_spec`: the rejecting ledger returns the error with
the state unchanged; the accepting ledger farms the reward coin. -/
theorem push_tx_spec_witness :
    exNetR.push_tx ⟨[], []⟩ = (exNetR, PushResult.err "GENERATOR_RUNTIME_ERROR") ∧
    (exNet.push_tx ⟨[], []⟩).2
      = PushResult.ok [⟨Digest.genesis 0, Digest.puzzleOfPk 0, 1000000⟩] [] :=
  ⟨(push_tx_spec exNetR ⟨[], []⟩).1 "GENERATOR_RUNTIME_ERROR" rfl,
   ((push_tx_spec exNet ⟨[], []⟩).2 rfl).1.trans (by decide)⟩

/-- The `while` loop of `skip_time`: if it returns a state, that state is
reached from the start state by iterating `skipStep` (farm one block, pass 20
seconds of ledger time), every iteration ran because the ledger clock was
still short of the target, and on return the clock has reached the target. -/
theorem skipLoop_spec (farmer : Option Nat) (T : Int) :
    ∀ (fuel : Nat) (net net' : Network), skipLoop farmer T fuel net = some net' →
      T ≤ net'.get_timestamp ∧
      ∃ k, net' = (skipStep farmer)^[k] net ∧
        ∀ j < k, ((skipStep farmer)^[j] net).get_timestamp < T := by
  intro fuel
  induction fuel with
  | zero => intro net net' hsome; simp [skipLoop] at hsome
  | succ f ih =>
    intro net net' hsome
    by_cases hc : net.get_timestamp < T
    · rw [skipLoop, if_pos hc] at hsome
      obtain ⟨hT, k, hk, hlt⟩ := ih _ _ hsome
      refine ⟨hT, k + 1, ?_, ?_⟩
      · rw [Function.iterate_succ_apply]; exact hk
      · intro j hj
        cases j with
        | zero => simpa using hc
        | succ j' =>
          rw [Function.iterate_succ_apply]
          exact hlt j' (by omega)
    · rw [skipLoop, if_neg hc] at hsome
      cases hsome
      exact ⟨le_of_not_lt hc, 0, rfl, by omega⟩

/-- Claim C9: whenever `skip_time(duration)` returns, it has repeatedly
farmed blocks (iterations of `skipStep`), each iteration launched only while
the ledger clock was still below the start-of-call session time plus the
parsed duration, and at return the ledger clock has reached that target. -/
theorem skip_time_reaches_target (net : Network) (fuel : Nat) (d : Int)
    (farmer : Option Nat) (net' : Network)
    (h : net.skip_time fuel d farmer = some net') :
    net.time + d ≤ net'.get_timestamp ∧
    ∃ k, net' = (skipStep farmer)^[k] net ∧
      ∀ j < k, ((skipStep farmer)^[j] net).get_timestamp < net.time + d :=
  skipLoop_spec farmer (net.time + d) fuel net net' h

/-- Witness for `skip_time_reaches_target`: skipping 30 seconds farms blocks
until the ledger clock passes the target. -/
theorem skip_time_reaches_target_witness :
    ∃ n', Network.skip_time exNet 5 (30 * usPerSecond) none = some n' ∧
      exNet.time + 30 * usPerSecond ≤ n'.get_timestamp := by
  have hs : (Network.skip_time exNet 5 (30 * usPerSecond) none).isSome = true := by decide
  obtain ⟨n', hn⟩ := Option.isSome_iff_exists.mp hs
  exact ⟨n', hn, (skip_time_reaches_target exNet 5 (30 * usPerSecond) none n' hn).1⟩

/-- Claim C3: whenever `combine_coins(coins)` (with at least two input coins)
returns normally, the actor's balance equals its balance before the call and
its coin count dropped by exactly `len(coins) - 1` — these are precisely the
source's post-`assert`s, which gate every normal return. -/
theorem combine_preserves_balance (net : Network) (i : Nat) (coins : List Coin)
    (r : SpendResult) (hlen : 2 ≤ coins.length)
    (hok : (Wallet.combine_coins net i coins).2 = Except.ok r) :
    ((Wallet.combine_coins net i coins).1.getWallet i).balance
      = (net.getWallet i).balance ∧
    (((Wallet.combine_coins net i coins).1.getWallet i).usable_coins.length : Int)
      = ((net.getWallet i).usable_coins.length : Int) - ((coins.length : Int) - 1) := by
  cases hL : coins.getLast? with
  | none =>
    rw [List.getLast?_eq_none_iff] at hL
    subst hL; simp at hlen
  | some lastCoin =>
    simp only [Wallet.combine_coins, hL] at hok ⊢
    rcases hp : net.push_tx ((net.getWallet i).combine_bundle coins lastCoin).2
      with ⟨net1, pushed⟩
    simp only at hok ⊢
    split_ifs at hok with h1 h2
    rw [hp] at h1 h2
    exact ⟨h1.symm, h2⟩

/-- Witness for `combine_preserves_balance`: combining alice's two coins on
the accepting ledger preserves her balance (8) and shrinks her coin set from
two coins to one. -/
theorem combine_preserves_balance_witness :
    ((Wallet.combine_coins exNet 1 [coinA, coinB]).1.getWallet 1).balance
      = (exNet.getWallet 1).balance ∧
    (((Wallet.combine_coins exNet 1 [coinA, coinB]).1.getWallet 1).usable_coins.length : Int)
      = ((exNet.getWallet 1).usable_coins.length : Int)
        - ((([coinA, coinB] : List Coin).length : Int) - 1) :=
  combine_preserves_balance exNet 1 [coinA, coinB]
    ⟨none, [⟨Digest.genesis 0, Digest.puzzleOfPk 0, 1000000⟩,
            ⟨coinB.name, Digest.puzzleOfPk 1, 8⟩]⟩
    (by decide) (by rfl)

theorem upsert_canonical {m : List (Digest × Coin)} (hm : CanonicalEntries m)
    (c : Coin) : CanonicalEntries (upsert c.name c m) := by
  induction m with
  | nil => intro p hp; simp [upsert] at hp; simp [hp]
  | cons q rest ih =>
    have hq := hm q (by simp)
    have hrest : CanonicalEntries rest := fun p hp => hm p (by simp [hp])
    intro p hp
    by_cases h : q.1 = c.name
    · rw [upsert, if_pos h] at hp
      rcases List.mem_cons.mp hp with rfl | hp'
      · rfl
      · exact hrest p hp'
    · rw [upsert, if_neg h] at hp
      rcases List.mem_cons.mp hp with rfl | hp'
      · exact hq
      · exact ih hrest p hp'

theorem mem_upsert_canonical {m : List (Digest × Coin)} (hm : CanonicalEntries m)
    (c : Coin) (p : Digest × Coin) :
    p ∈ upsert c.name c m ↔ p = (c.name, c) ∨ p ∈ m := by
  induction m with
  | nil => simp [upsert]
  | cons q rest ih =>
    have hq := hm q (by simp)
    have hrest : CanonicalEntries rest := fun x hx => hm x (by simp [hx])
    by_cases h : q.1 = c.name
    · have hqc : q = (c.name, c) := by
        have : q.2 = c := coin_name_inj (by rw [← hq, h])
        cases q; simp_all
      rw [upsert, if_pos h, hqc]
      simp [List.mem_cons]
    · rw [upsert, if_neg h]
      simp only [List.mem_cons, ih hrest]
      tauto

/-- The refresh fold of `Network.farm_block`, abstracted over its starting
accumulator. -/
theorem refresh_fold_mem (rs : List CoinRecord) :
    ∀ (acc : Wallet), CanonicalEntries acc.usable_coins →
      (CanonicalEntries ((rs.foldl
        (fun a r => if r.spent = false then a.add_coin r.coin else a) acc).usable_coins) ∧
      ∀ p, p ∈ ((rs.foldl
          (fun a r => if r.spent = false then a.add_coin r.coin else a) acc).usable_coins) ↔
        (p ∈ acc.usable_coins ∨
          ∃ r ∈ rs, r.spent = false ∧ p = (r.coin.name, r.coin))) := by
  induction rs with
  | nil =>
    intro acc hacc
    refine ⟨by simpa using hacc, fun p => ?_⟩
    simp
  | cons r rest ih =>
    intro acc hacc
    rw [List.foldl_cons]
    by_cases hs : r.spent = false
    · rw [if_pos hs]
      have hacc' : CanonicalEntries (acc.add_coin r.coin).usable_coins := by
        simpa [Wallet.add_coin] using upsert_canonical hacc r.coin
      obtain ⟨hcan, hmem⟩ := ih (acc.add_coin r.coin) hacc'
      refine ⟨hcan, fun p => ?_⟩
      rw [hmem p]
      have : p ∈ (acc.add_coin r.coin).usable_coins ↔
          p = (r.coin.name, r.coin) ∨ p ∈ acc.usable_coins := by
        simpa [Wallet.add_coin] using mem_upsert_canonical hacc r.coin p
      rw [this]
      constructor
      · rintro ((rfl | hp) | ⟨r', hr', hsp, rfl⟩)
        · exact Or.inr ⟨r, by simp, hs, rfl⟩
        · exact Or.inl hp
        · exact Or.inr ⟨r', by simp [hr'], hsp, rfl⟩
      · rintro (hp | ⟨r', hr', hsp, rfl⟩)
        · exact Or.inl (Or.inr hp)
        · rcases List.mem_cons.mp hr' with rfl | hr''
          · exact Or.inl (Or.inl rfl)
          · exact Or.inr ⟨r', hr'', hsp, rfl⟩
    · rw [if_neg hs]
      obtain ⟨hcan, hmem⟩ := ih acc hacc
      refine ⟨hcan, fun p => ?_⟩
      rw [hmem p]
      constructor
      · rintro (hp | ⟨r', hr', hsp, rfl⟩)
        · exact Or.inl hp
        · exact Or.inr ⟨r', by simp [hr'], hsp, rfl⟩
      · rintro (hp | ⟨r', hr', hsp, rfl⟩)
        · exact Or.inl hp
        · rcases List.mem_cons.mp hr' with rfl | hr''
          · exact absurd hsp hs
          · exact Or.inr ⟨r', hr'', hsp, rfl⟩

/-- Membership in a refreshed wallet's coin set: exactly the unspent ledger
records locked to the wallet's puzzle hash, keyed by coin id. -/
theorem refresh_from_ledger_mem (w : Wallet) (records : List CoinRecord)
    (p : Digest × Coin) :
    p ∈ (w.refresh_from_ledger records).usable_coins ↔
      (p.1 = p.2.name ∧ p.2.puzzle_hash = w.puzzle_hash ∧
        ∃ r ∈ records, r.spent = false ∧ r.coin = p.2) := by
  have h0 : CanonicalEntries (Wallet.clear_coins w).usable_coins := by
    intro q hq; simp [Wallet.clear_coins] at hq
  obtain ⟨hcan, hmem⟩ := refresh_fold_mem
    (records.filter (fun r => decide (r.coin.puzzle_hash = w.puzzle_hash)))
    w.clear_coins h0
  rw [Wallet.refresh_from_ledger, hmem p]
  simp only [Wallet.clear_coins, List.not_mem_nil, false_or, List.mem_filter,
    decide_eq_true_eq]
  constructor
  · rintro ⟨r, ⟨hr, hph⟩, hsp, rfl⟩
    exact ⟨rfl, hph, r, hr, hsp, rfl⟩
  · rintro ⟨hk, hph, r, hr, hsp, hc⟩
    refine ⟨r, ⟨hr, by rw [hc]; exact hph⟩, hsp, ?_⟩
    cases p
    simp_all

/-- The refresh depends only on the puzzle hash and the ledger records, never
on the previous coin set ("replaced wholesale, never incrementally
patched"). -/
theorem refresh_from_ledger_ignores_old (w w' : Wallet) (records : List CoinRecord)
    (h : w'.puzzle_hash = w.puzzle_hash) :
    (w'.refresh_from_ledger records).usable_coins
      = (w.refresh_from_ledger records).usable_coins := by
  have key : ∀ (rs : List CoinRecord) (a b : Wallet),
      a.usable_coins = b.usable_coins →
      (rs.foldl (fun x r => if r.spent = false then x.add_coin r.coin else x) a).usable_coins
        = (rs.foldl (fun x r => if r.spent = false then x.add_coin r.coin else x) b).usable_coins := by
    intro rs
    induction rs with
    | nil => intro a b hab; simpa using hab
    | cons r rest ih =>
      intro a b hab
      rw [List.foldl_cons, List.foldl_cons]
      by_cases hs : r.spent = false
      · rw [if_pos hs, if_pos hs]
        exact ih _ _ (by simp [Wallet.add_coin, hab])
      · rw [if_neg hs, if_neg hs]
        exact ih _ _ hab
  rw [Wallet.refresh_from_ledger, Wallet.refresh_from_ledger, h]
  exact key _ _ _ (by simp [Wallet.clear_coins])

theorem getWallet_map (net : Network) (f : Wallet → Wallet) (i : Nat)
    (hi : i < net.wallets.length) :
    (net.wallets.map f).getD i default = f (net.wallets.getD i default) := by
  rw [List.getD_eq_getElem?_getD, List.getD_eq_getElem?_getD, List.getElem?_map,
    List.getElem?_eq_getElem hi]
  simp

/-- Claim C8: after `farm_block`, each known actor's coin set is exactly the
set of currently unspent ledger coins locked to that actor's puzzle hash
(including coins created for the actor by transactions it did not initiate,
excluding every spent coin), and it is wholly rebuilt from the fresh ledger
query — the previous coin set is irrelevant. -/
theorem farm_block_rebuilds_coin_sets (net : Network) (farmer : Option Nat) (i : Nat)
    (hi : i < net.wallets.length) :
    (∀ p : Digest × Coin,
      p ∈ (((net.farm_block farmer).1).getWallet i).usable_coins ↔
        (p.1 = p.2.name ∧ p.2.puzzle_hash = (net.getWallet i).puzzle_hash ∧
          ∃ r ∈ ((net.farm_block farmer).1).sim.records,
            r.spent = false ∧ r.coin = p.2)) ∧
    (∀ w' : Wallet, w'.puzzle_hash = (net.getWallet i).puzzle_hash →
      (w'.refresh_from_ledger ((net.farm_block farmer).1).sim.records).usable_coins
        = (((net.farm_block farmer).1).getWallet i).usable_coins) := by
  have hw : ((net.farm_block farmer).1).getWallet i
      = (net.getWallet i).refresh_from_ledger
          ((net.sim.farm_block (match farmer with
            | some j => net.getWallet j
            | none => net.getWallet 0).puzzle_hash).1.records) := by
    simp only [Network.farm_block, Network.getWallet]
    exact getWallet_map net _ i hi
  have hrec : ((net.farm_block farmer).1).sim.records
      = ((net.sim.farm_block (match farmer with
            | some j => net.getWallet j
            | none => net.getWallet 0).puzzle_hash).1.records) := rfl
  constructor
  · intro p
    rw [hw, hrec]
    exact refresh_from_ledger_mem _ _ p
  · intro w' hph
    rw [hw, hrec]
    exact refresh_from_ledger_ignores_old _ _ _ hph

/-- Witness for `farm_block_rebuilds_coin_sets`: after farming a block on the
example session, alice's set contains her (still unspent) `coinA`. -/
theorem farm_block_rebuilds_coin_sets_witness :
    (coinA.name, coinA) ∈ (((exNet.farm_block none).1).getWallet 1).usable_coins := by
  have h := (farm_block_rebuilds_coin_sets exNet none 1 (by decide)).1 (coinA.name, coinA)
  exact h.mpr ⟨rfl, rfl, ⟨coinA, false⟩, by decide, rfl, rfl⟩

/-- Claim C6: `launch_contract` raises exactly when `choose_coin` produced no
funding coin (either the selector's `None`, turned into the
insufficient-funds `ValueError`, or an exception propagated out of the
funding search); once a funding coin is found it never raises: a ledger
rejection of the launch push yields the null result `None`, and an accepted
push yields the predicted contract-locked coin of the requested amount,
the pushed bundle containing the contract's `CREATE_COIN` and, when the
funding coin has excess, the change `CREATE_COIN` back to the wallet. -/
theorem launch_contract_spec (fuel : Nat) (net : Network) (i : Nat)
    (source_hash : Digest) (amt : Int) (net1 : Network)
    (chosen : Except String (Option Coin))
    (hc : Wallet.choose_coin fuel net i amt = (net1, chosen)) :
    (chosen = Except.ok none →
      Wallet.launch_contract fuel net i source_hash amt
        = (net1, Except.error ("ValueError: could not find available coin containing "
            ++ toString amt ++ " mojo"))) ∧
    (∀ e, chosen = Except.error e →
      Wallet.launch_contract fuel net i source_hash amt = (net1, Except.error e)) ∧
    (∀ found_coin : Coin, chosen = Except.ok (some found_coin) →
      (∀ e, net1.sim.validate net1.sim.records
            (launchBundle net1 i source_hash amt found_coin) = some e →
        Wallet.launch_contract fuel net i source_hash amt = (net1, Except.ok none)) ∧
      (net1.sim.validate net1.sim.records
            (launchBundle net1 i source_hash amt found_coin) = none →
        Wallet.launch_contract fuel net i source_hash amt
          = ((net1.push_tx (launchBundle net1 i source_hash amt found_coin)).1,
             Except.ok (some ⟨found_coin.name, source_hash, amt⟩)))) := by
  refine ⟨?_, ?_, ?_⟩
  · rintro rfl
    simp only [Wallet.launch_contract, hc]
  · rintro e rfl
    simp only [Wallet.launch_contract, hc]
  · rintro found_coin rfl
    constructor
    · intro e he
      simp only [Wallet.launch_contract, hc, launchBundle, Network.push_tx] at he ⊢
      rw [he]
    · intro he
      simp only [Wallet.launch_contract, hc, launchBundle, Network.push_tx] at he ⊢
      rw [he]

/-- Witness for `launch_contract_spec`: launching a contract for amount 2
from alice (whose selector picks `coinB` of amount 5 directly) succeeds and
returns the predicted contract coin; asking for amount 100 raises the
insufficient-funds error. -/
theorem launch_contract_spec_witness :
    Wallet.launch_contract 3 exNet 1 (Digest.treeHash 7) 2
      = ((exNet.push_tx (launchBundle exNet 1 (Digest.treeHash 7) 2 coinB)).1,
         Except.ok (some ⟨coinB.name, Digest.treeHash 7, 2⟩)) ∧
    Wallet.launch_contract 3 exNet 1 (Digest.treeHash 7) 100
      = (exNet, Except.error ("ValueError: could not find available coin containing "
          ++ toString (100 : Int) ++ " mojo")) :=
  ⟨((launch_contract_spec 3 exNet 1 (Digest.treeHash 7) 2 exNet
      (Except.ok (some coinB)) rfl).2.2 coinB rfl).2 rfl,
   (launch_contract_spec 3 exNet 1 (Digest.treeHash 7) 100 exNet
      (Except.ok none) rfl).1 rfl⟩

/-! ## Selector analysis (claim C2) -/

theorem sumAmounts_cons (c : Coin) (l : List Coin) :
    sumAmounts (c :: l) = c.amount + sumAmounts l := rfl

theorem sumAmounts_insort (c : Coin) (l : List Coin) :
    sumAmounts (CoinPairSearch.insort c l) = c.amount + sumAmounts l := by
  induction l with
  | nil => rfl
  | cons x xs ih =>
    rw [CoinPairSearch.insort]
    split_ifs with h
    · rfl
    · rw [sumAmounts_cons, ih, sumAmounts_cons]; omega

theorem mem_insort {x : Coin} (c : Coin) (l : List Coin) :
    x ∈ CoinPairSearch.insort c l ↔ x = c ∨ x ∈ l := by
  induction l with
  | nil => simp [CoinPairSearch.insort]
  | cons y ys ih =>
    rw [CoinPairSearch.insort]
    split_ifs with h
    · simp [List.mem_cons]
    · simp only [List.mem_cons, ih]
      tauto

theorem insort_ne_nil (c : Coin) (l : List Coin) : CoinPairSearch.insort c l ≠ [] := by
  cases l with
  | nil => simp [CoinPairSearch.insort]
  | cons y ys =>
    rw [CoinPairSearch.insort]
    split_ifs <;> simp

theorem sortedDesc_insort (c : Coin) :
    ∀ {l : List Coin}, SortedDesc l → SortedDesc (CoinPairSearch.insort c l) := by
  intro l
  induction l with
  | nil => intro _; simp [CoinPairSearch.insort, SortedDesc]
  | cons x xs ih =>
    intro h
    rw [SortedDesc, List.pairwise_cons] at h
    obtain ⟨hx, hxs⟩ := h
    rw [CoinPairSearch.insort]
    split_ifs with hlt
    · rw [SortedDesc, List.pairwise_cons]
      refine ⟨?_, ?_⟩
      · intro b hb
        rcases List.mem_cons.mp hb with rfl | hb'
        · omega
        · have := hx b hb'; omega
      · rw [List.pairwise_cons]; exact ⟨hx, hxs⟩
    · rw [SortedDesc, List.pairwise_cons]
      refine ⟨?_, ih hxs⟩
      intro b hb
      rcases (mem_insort c xs).mp hb with rfl | hb'
      · omega
      · exact hx b hb'

theorem sortedDesc_getLast?_min :
    ∀ {l : List Coin}, SortedDesc l → ∀ m, l.getLast? = some m →
      ∀ c ∈ l, m.amount ≤ c.amount := by
  intro l
  induction l with
  | nil => intro _ m hm; simp at hm
  | cons x xs ih =>
    intro h m hm c hc
    rw [SortedDesc, List.pairwise_cons] at h
    obtain ⟨hx, hxs⟩ := h
    cases xs with
    | nil =>
      simp at hm
      subst hm
      rcases List.mem_cons.mp hc with rfl | hc'
      · exact le_refl _
      · simp at hc'
    | cons y ys =>
      have hm' : (y :: ys).getLast? = some m := hm
      have hmem : m ∈ y :: ys := List.mem_of_mem_getLast? hm'
      rcases List.mem_cons.mp hc with rfl | hc'
      · exact hx m hmem
      · exact ih hxs m hm' c hc'

/-- Behaviour of the eviction loop: it preserves the difference between the
running total and the kept sum, only removes a suffix, stops either empty or
with the smallest kept coin no longer removable, and either did nothing or
left the total at or above the target. -/
theorem evictFuel_spec (target : Int) :
    ∀ (fuel : Nat) (total : Int) (l : List Coin), l.length ≤ fuel →
      (total - sumAmounts l
        = (CoinPairSearch.evictFuel target fuel total l).1
          - sumAmounts (CoinPairSearch.evictFuel target fuel total l).2) ∧
      (∃ suf, l = (CoinPairSearch.evictFuel target fuel total l).2 ++ suf) ∧
      ((CoinPairSearch.evictFuel target fuel total l).2 = [] ∨
        ∃ m, (CoinPairSearch.evictFuel target fuel total l).2.getLast? = some m ∧
          (CoinPairSearch.evictFuel target fuel total l).1 - m.amount < target) ∧
      (((CoinPairSearch.evictFuel target fuel total l).1 = total ∧
          (CoinPairSearch.evictFuel target fuel total l).2 = l) ∨
        target ≤ (CoinPairSearch.evictFuel target fuel total l).1) := by
  intro fuel
  induction fuel with
  | zero =>
    intro total l hl
    have hnil : l = [] := List.length_eq_zero.mp (Nat.le_zero.mp hl)
    subst hnil
    exact ⟨rfl, ⟨[], rfl⟩, Or.inl rfl, Or.inl ⟨rfl, rfl⟩⟩
  | succ f ih =>
    intro total l hl
    cases hL : l.getLast? with
    | none =>
      have hnil : l = [] := List.getLast?_eq_none_iff.mp hL
      subst hnil
      exact ⟨rfl, ⟨[], rfl⟩, Or.inl rfl, Or.inl ⟨rfl, rfl⟩⟩
    | some c =>
      have hlne : l ≠ [] := by intro h; subst h; simp at hL
      have hdec : l.dropLast ++ [c] = l := dropLast_append_getLast?_self l c hL
      by_cases hcond : target ≤ total - c.amount
      · have hred : CoinPairSearch.evictFuel target (f + 1) total l
            = CoinPairSearch.evictFuel target f (total - c.amount) l.dropLast := by
          simp only [CoinPairSearch.evictFuel, hL]
          exact if_pos hcond
        have hlen : l.dropLast.length ≤ f := by
          rw [List.length_dropLast]
          have : 0 < l.length := List.length_pos.mpr hlne
          omega
        obtain ⟨e1, ⟨suf, hsuf⟩, e3, e4⟩ := ih (total - c.amount) l.dropLast hlen
        have hsl : sumAmounts l.dropLast + c.amount = sumAmounts l := by
          have h2 := congrArg sumAmounts hdec
          rw [sumAmounts_append, sumAmounts_cons,
            show sumAmounts ([] : List Coin) = 0 from rfl] at h2
          omega
        rw [hred]
        refine ⟨by omega, ⟨suf ++ [c], ?_⟩, e3, ?_⟩
        · rw [← List.append_assoc, ← hsuf, hdec]
        · rcases e4 with ⟨he, _⟩ | he
          · right; omega
          · right; exact he
      · have hred : CoinPairSearch.evictFuel target (f + 1) total l = (total, l) := by
          simp only [CoinPairSearch.evictFuel, hL]
          exact if_neg hcond
        rw [hred]
        exact ⟨rfl, ⟨[], by simp⟩, Or.inr ⟨c, hL, by omega⟩, Or.inl ⟨rfl, rfl⟩⟩

theorem evict_spec (target total : Int) (l : List Coin) :
    (total - sumAmounts l
      = (CoinPairSearch.evict target total l).1
        - sumAmounts (CoinPairSearch.evict target total l).2) ∧
    (∃ suf, l = (CoinPairSearch.evict target total l).2 ++ suf) ∧
    ((CoinPairSearch.evict target total l).2 = [] ∨
      ∃ m, (CoinPairSearch.evict target total l).2.getLast? = some m ∧
        (CoinPairSearch.evict target total l).1 - m.amount < target) ∧
    (((CoinPairSearch.evict target total l).1 = total ∧
        (CoinPairSearch.evict target total l).2 = l) ∨
      target ≤ (CoinPairSearch.evict target total l).1) :=
  evictFuel_spec target l.length total l (le_refl _)

theorem sumAmounts_concat (done : List Coin) (c : Coin) :
    sumAmounts (done ++ [c]) = sumAmounts done + c.amount := by
  rw [sumAmounts_append, sumAmounts_cons,
    show sumAmounts ([] : List Coin) = 0 from rfl]
  omega

/-- One step of the selector preserves the invariant (for a positive target
and nonnegative coin amounts). -/
theorem selector_step (done : List Coin) (s : CoinPairSearch) (ht : 1 ≤ s.target)
    (inv : SelectorInv done s) (c : Coin)
    (hnn : ∀ x ∈ done ++ [c], 0 ≤ x.amount) :
    SelectorInv (done ++ [c]) (s.process_coin_for_combine_search c) := by
  have hc : 0 ≤ c.amount := hnn c (by simp)
  have hdone : ∀ x ∈ done, 0 ≤ x.amount := fun x hx => hnn x (by simp [hx])
  have hsum : sumAmounts (done ++ [c]) = sumAmounts done + c.amount :=
    sumAmounts_concat done c
  rw [CoinPairSearch.process_coin_for_combine_search]
  by_cases hmc : s.max_coins = []
  · rw [if_pos hmc]
    have ht0 : s.total = 0 := by rw [inv.total_eq, hmc]; rfl
    refine ⟨?_, ?_, ?_, ?_, ?_, ?_⟩
    · show s.total + c.amount = sumAmounts [c]
      rw [sumAmounts_cons, show sumAmounts ([] : List Coin) = 0 from rfl]
      omega
    · show SortedDesc [c]
      simp [SortedDesc]
    · intro x hx
      simp only [List.mem_singleton] at hx
      subst hx; simp
    · intro m hm
      simp only [List.getLast?_singleton, Option.some.injEq] at hm
      subst hm
      show s.total + c.amount - c.amount < s.target
      omega
    · rcases inv.cover with hcov | hcov
      · omega
      · right
        show s.total + c.amount = sumAmounts (done ++ [c])
        omega
    · show s.total + c.amount ≤ sumAmounts (done ++ [c])
      have hb := inv.bounded
      omega
  · rw [if_neg hmc]
    show SelectorInv (done ++ [c])
      ⟨s.target,
       (CoinPairSearch.evict s.target (s.total + c.amount)
         (CoinPairSearch.insort c s.max_coins)).1,
       (CoinPairSearch.evict s.target (s.total + c.amount)
         (CoinPairSearch.insort c s.max_coins)).2⟩
    rcases hE : CoinPairSearch.evict s.target (s.total + c.amount)
        (CoinPairSearch.insort c s.max_coins) with ⟨t', kept⟩
    have hspec := evict_spec s.target (s.total + c.amount)
      (CoinPairSearch.insort c s.max_coins)
    rw [hE] at hspec
    simp only at hspec
    obtain ⟨e1, ⟨suf, hsuf⟩, e3, e4⟩ := hspec
    have hins_sum : sumAmounts (CoinPairSearch.insort c s.max_coins)
        = c.amount + sumAmounts s.max_coins := sumAmounts_insort c s.max_coins
    have hte := inv.total_eq
    have htot : t' = sumAmounts kept := by omega
    have hmemins : ∀ x ∈ kept, x ∈ CoinPairSearch.insort c s.max_coins := by
      intro x hx; rw [hsuf]; exact List.mem_append_left _ hx
    have hmem' : ∀ x ∈ kept, x ∈ done ++ [c] := by
      intro x hx
      rcases (mem_insort c s.max_coins).mp (hmemins x hx) with rfl | hx'
      · simp
      · simp [inv.mem x hx']
    have hnnsuf : ∀ x ∈ suf, 0 ≤ x.amount := by
      intro x hx
      have hxi : x ∈ CoinPairSearch.insort c s.max_coins := by
        rw [hsuf]; exact List.mem_append_right _ hx
      rcases (mem_insort c s.max_coins).mp hxi with rfl | hx'
      · exact hc
      · exact hdone x (inv.mem x hx')
    have hsufsum : 0 ≤ sumAmounts suf := sumAmounts_nonneg suf hnnsuf
    have hsplit : sumAmounts (CoinPairSearch.insort c s.max_coins)
        = sumAmounts kept + sumAmounts suf := by
      rw [hsuf, sumAmounts_append]
    have hkne : kept ≠ [] := by
      intro hk
      subst hk
      rcases e4 with ⟨_, hl'⟩ | he
      · exact insort_ne_nil c s.max_coins hl'.symm
      · rw [show sumAmounts ([] : List Coin) = 0 from rfl] at htot
        omega
    refine ⟨htot, ?_, hmem', ?_, ?_, ?_⟩
    · have hsort : SortedDesc (CoinPairSearch.insort c s.max_coins) :=
        sortedDesc_insort c inv.sorted
      rw [SortedDesc] at hsort ⊢
      rw [hsuf] at hsort
      exact hsort.sublist (List.sublist_append_left kept suf)
    · intro m hm
      rcases e3 with hkept | ⟨m', hm', hlt⟩
      · exact absurd hkept hkne
      · rw [hm] at hm'
        injection hm' with hmm
        subst hmm
        exact hlt
    · rcases e4 with ⟨he, _⟩ | he
      · rcases inv.cover with hcov | hcov
        · left
          show s.target ≤ t'
          omega
        · right
          show t' = sumAmounts (done ++ [c])
          omega
      · left; exact he
    · show t' ≤ sumAmounts (done ++ [c])
      have hb := inv.bounded
      omega

theorem process_target (s : CoinPairSearch) (c : Coin) :
    (s.process_coin_for_combine_search c).target = s.target := by
  rw [CoinPairSearch.process_coin_for_combine_search]
  by_cases hmc : s.max_coins = []
  · rw [if_pos hmc]
  · rw [if_neg hmc]

theorem foldl_process_target (l : List Coin) :
    ∀ s : CoinPairSearch,
      (l.foldl CoinPairSearch.process_coin_for_combine_search s).target = s.target := by
  induction l with
  | nil => intro s; rfl
  | cons c rest ih => intro s; rw [List.foldl_cons, ih, process_target]

theorem selector_fold :
    ∀ (pending done : List Coin) (s : CoinPairSearch), 1 ≤ s.target →
      SelectorInv done s → (∀ x ∈ done ++ pending, 0 ≤ x.amount) →
      SelectorInv (done ++ pending)
        (pending.foldl CoinPairSearch.process_coin_for_combine_search s) := by
  intro pending
  induction pending with
  | nil => intro done s _ inv _; simpa using inv
  | cons c rest ih =>
    intro done s ht inv hnn
    rw [List.foldl_cons]
    have hnn1 : ∀ x ∈ done ++ [c], 0 ≤ x.amount := by
      intro x hx
      apply hnn
      rcases List.mem_append.mp hx with h | h
      · exact List.mem_append_left _ h
      · simp only [List.mem_singleton] at h; subst h; simp
    have hstep := selector_step done s ht inv c hnn1
    have ht' : 1 ≤ (s.process_coin_for_combine_search c).target := by
      rw [process_target]; exact ht
    have hnn2 : ∀ x ∈ (done ++ [c]) ++ rest, 0 ≤ x.amount := by
      intro x hx
      apply hnn
      rw [List.append_assoc] at hx
      simpa using hx
    have hR := ih (done ++ [c]) (s.process_coin_for_combine_search c) ht' hstep hnn2
    rw [List.append_assoc] at hR
    exact hR

/-- Claim C2, amended to positive targets: for every positive target and
candidate coins of nonnegative amounts, if the candidates' total covers the
target then `compute_combine_action` returns a subset of the candidates whose
total is at least the target and whose smallest element (the last of the
descending-sorted kept list) cannot be removed without dropping the total
below the target; if the candidates' total is below the target it returns
`None`. -/
theorem selector_greedy_spec (w : Wallet) (amt : Int) (ht : 1 ≤ amt)
    (hnn : ∀ p ∈ w.usable_coins, 0 ≤ p.2.amount) :
    (amt ≤ sumAmounts (w.usable_coins.map Prod.snd) →
      ∃ l, w.compute_combine_action amt = some l ∧
        amt ≤ sumAmounts l ∧
        (∀ c ∈ l, c ∈ w.usable_coins.map Prod.snd) ∧
        ∃ m, l.getLast? = some m ∧ (∀ c ∈ l, m.amount ≤ c.amount) ∧
          sumAmounts l - m.amount < amt) ∧
    (sumAmounts (w.usable_coins.map Prod.snd) < amt →
      w.compute_combine_action amt = none) := by
  have hinit : SelectorInv [] (⟨amt, 0, []⟩ : CoinPairSearch) := by
    refine ⟨rfl, ?_, ?_, ?_, Or.inr rfl, le_refl 0⟩
    · simp [SortedDesc]
    · intro x hx; simp at hx
    · intro m hm; simp at hm
  have hnn' : ∀ x ∈ ([] : List Coin) ++ w.usable_coins.map Prod.snd, 0 ≤ x.amount := by
    intro x hx
    simp only [List.nil_append, List.mem_map] at hx
    obtain ⟨p, hp, rfl⟩ := hx
    exact hnn p hp
  have hfold := selector_fold (w.usable_coins.map Prod.snd) [] ⟨amt, 0, []⟩ ht hinit hnn'
  rw [List.nil_append] at hfold
  have hfe : (w.usable_coins.foldl (fun s p => s.process_coin_for_combine_search p.2)
        (⟨amt, 0, []⟩ : CoinPairSearch))
      = ((w.usable_coins.map Prod.snd).foldl CoinPairSearch.process_coin_for_combine_search
        (⟨amt, 0, []⟩ : CoinPairSearch)) :=
    (List.foldl_map _ _ _ _).symm
  have htgt : ((w.usable_coins.map Prod.snd).foldl
      CoinPairSearch.process_coin_for_combine_search
      (⟨amt, 0, []⟩ : CoinPairSearch)).target = amt :=
    foldl_process_target _ _
  have hcca : w.compute_combine_action amt
      = (if amt ≤ ((w.usable_coins.map Prod.snd).foldl
            CoinPairSearch.process_coin_for_combine_search
            (⟨amt, 0, []⟩ : CoinPairSearch)).total
         then some ((w.usable_coins.map Prod.snd).foldl
            CoinPairSearch.process_coin_for_combine_search
            (⟨amt, 0, []⟩ : CoinPairSearch)).max_coins
         else none) := by
    rw [Wallet.compute_combine_action, hfe]
    rfl
  set S := (w.usable_coins.map Prod.snd).foldl
    CoinPairSearch.process_coin_for_combine_search (⟨amt, 0, []⟩ : CoinPairSearch) with hS
  constructor
  · intro hge
    have hcov : amt ≤ S.total := by
      rcases hfold.cover with h | h
      · rwa [htgt] at h
      · omega
    refine ⟨S.max_coins, ?_, ?_, hfold.mem, ?_⟩
    · rw [hcca, if_pos hcov]
    · rw [← hfold.total_eq]; exact hcov
    · have hne : S.max_coins ≠ [] := by
        intro h0
        have h1 := hfold.total_eq
        rw [h0, show sumAmounts ([] : List Coin) = 0 from rfl] at h1
        omega
      obtain ⟨m, hm⟩ : ∃ m, S.max_coins.getLast? = some m := by
        cases hg : S.max_coins.getLast? with
        | none => exact absurd (List.getLast?_eq_none_iff.mp hg) hne
        | some m => exact ⟨m, rfl⟩
      refine ⟨m, hm, sortedDesc_getLast?_min hfold.sorted m hm, ?_⟩
      have hmin := hfold.minimal m hm
      rw [htgt] at hmin
      rw [← hfold.total_eq]
      exact hmin
  · intro hlt
    have hnle : ¬ amt ≤ S.total := by
      have hb := hfold.bounded
      omega
    rw [hcca, if_neg hnle]

/-- Counterexample to claim C2 as stated ("for every target amount"): with
target 0 and the single candidate `coinC` (amount 1), the selector returns
`[coinC]`, but removing the subset's smallest (only) element leaves total 0,
which is not below the target 0. -/
theorem selector_zero_target_cex :
    bobW.compute_combine_action 0 = some [coinC] ∧
    ¬ (sumAmounts [coinC] - coinC.amount < 0) := by
  constructor
  · rfl
  · decide

/-- Witness for `selector_greedy_spec`: coins `[10, 10, 10]`, target 25 — the
selector keeps all three (total 30), and no coin can be dropped
(30 − 10 = 20 < 25). -/
theorem selector_greedy_spec_witness :
    ∃ l, carolW.compute_combine_action 25 = some l ∧
      25 ≤ sumAmounts l ∧
      (∀ c ∈ l, c ∈ carolW.usable_coins.map Prod.snd) ∧
      ∃ m, l.getLast? = some m ∧ (∀ c ∈ l, m.amount ≤ c.amount) ∧
        sumAmounts l - m.amount < 25 :=
  (selector_greedy_spec carolW 25 (by decide) (by decide)).1 (by decide)
